import Mathlib

/-!
# Verification of the BizBrain ingestion pipeline and hybrid retrieval engine

Shallow embedding of the Python sources:
* `src/processors/text_chunker.py` (`TextChunker._chunk_text`)
* `src/interface/cli.py` (`BizBrainCLI.fully_process_document`, the inline chunk loop)
* `src/processors/document_loader.py` (`create_batch`, `delete_empty_batch`, registry)
* `src/indexers/vector_indexer.py` (`_load_or_create_index`, `add_embeddings_bulk`)
* `src/retrievers/hybrid_retriever.py` (`HybridRetriever.retrieve`)

Modelling conventions:
* Python dicts are insertion-ordered association lists (`List (key × value)`);
  assignment to an existing key replaces in place, a new key is appended.
* Python `while` loops are fuel-based recursive functions returning `Option`;
  `none` models non-termination (fuel exhaustion for every fuel amount).
* IEEE floats that in the modelled paths only hold finite values are modelled
  as exact rationals; `float('inf')` arithmetic in the retriever is modelled by
  the type `XF` with the IEEE rules for `inf * x` and comparisons with `nan`.
* External collaborators (MD5, text extraction, embedding model, the regex
  section scan) are opaque pure/fallible functions supplied as parameters.
* Python's non-negative ints arising here are `Nat`; in every modelled code
  path the subtractions that occur (`end - overlap`, zero-fill widths) never
  go below zero under the stated preconditions, so `Nat` subtraction agrees
  with Python's `int` subtraction there.
-/

namespace BizBrain

/-! ## Decimal strings: Python `str(n)` and `str.zfill(width)`

`str(n)` produces the decimal digits of `n` with no leading zeros;
`s.zfill(w)` left-pads with `'0'` to width `w`.  These build the
`doc_NNN`, `batch_NNN` and `{doc}_chunk_{NNN}` identifiers. -/

/-- Little-endian decimal digits of `n`, with `fuel ≥ n` iterations available.
Empty for `n = 0` (Python `str` special-cases zero in `decChars`). -/
def toDecAux : ℕ → ℕ → List ℕ
  | 0, _ => []
  | _ + 1, 0 => []
  | fuel + 1, n + 1 => ((n + 1) % 10) :: toDecAux fuel ((n + 1) / 10)

/-- Little-endian decimal digits of `n`. -/
def natDigits (n : ℕ) : List ℕ := toDecAux n n

/-- Value of a little-endian digit list. -/
def fromDec (ds : List ℕ) : ℕ := ds.foldr (fun d r => d + 10 * r) 0

/-- Digit to ASCII character (`0` ↦ `'0'`, …). -/
def digitChar (d : ℕ) : Char := Char.ofNat (48 + d)

/-- The character list of Python `str(n)`. -/
def decChars (n : ℕ) : List Char :=
  if n = 0 then ['0'] else (natDigits n).reverse.map digitChar

/-- Python `str(n)`. -/
def natToStr (n : ℕ) : String := String.mk (decChars n)

/-- Python `s.zfill(w)` on a character list. -/
def zfillChars (w : ℕ) (cs : List Char) : List Char :=
  List.replicate (w - cs.length) '0' ++ cs

/-- Python `str(n).zfill(w)`. -/
def zfill (w : ℕ) (n : ℕ) : String := String.mk (zfillChars w (decChars n))

theorem fromDec_toDecAux (fuel : ℕ) : ∀ n, n ≤ fuel → fromDec (toDecAux fuel n) = n := by
  induction fuel with
  | zero => intro n hn; interval_cases n; rfl
  | succ fuel ih =>
    intro n hn
    match n with
    | 0 => rfl
    | m + 1 =>
      have hdiv : (m + 1) / 10 ≤ fuel := by
        have h1 : (m + 1) / 10 < m + 1 := Nat.div_lt_self (Nat.succ_pos m) (by norm_num)
        omega
      show fromDec (((m + 1) % 10) :: toDecAux fuel ((m + 1) / 10)) = m + 1
      have hrec := ih ((m + 1) / 10) hdiv
      simp only [fromDec, List.foldr] at hrec ⊢
      rw [hrec]
      omega

theorem fromDec_natDigits (n : ℕ) : fromDec (natDigits n) = n :=
  fromDec_toDecAux n n le_rfl

/-- For positive `n` the digit list ends in a nonzero digit (no leading zero
in the printed form), and all digits are below 10. -/
theorem toDecAux_concat (fuel : ℕ) :
    ∀ n, 0 < n → n ≤ fuel →
      ∃ ds d, toDecAux fuel n = ds ++ [d] ∧ 0 < d ∧ d < 10 ∧ ∀ e ∈ ds, e < 10 := by
  induction fuel with
  | zero => intro n hn hle; omega
  | succ fuel ih =>
    intro n hn hle
    match n, hn with
    | m + 1, _ =>
      have hstep : toDecAux (fuel + 1) (m + 1)
          = ((m + 1) % 10) :: toDecAux fuel ((m + 1) / 10) := rfl
      by_cases hsmall : (m + 1) / 10 = 0
      · have hlt : m + 1 < 10 := by omega
        have hnil : toDecAux fuel ((m + 1) / 10) = [] := by
          rw [hsmall]; cases fuel <;> rfl
        refine ⟨[], (m + 1) % 10, ?_, ?_, Nat.mod_lt _ (by norm_num), by simp⟩
        · rw [hstep, hnil]; rfl
        · omega
      · have hpos : 0 < (m + 1) / 10 := Nat.pos_of_ne_zero hsmall
        have hle' : (m + 1) / 10 ≤ fuel := by
          have h1 : (m + 1) / 10 < m + 1 := Nat.div_lt_self (Nat.succ_pos m) (by norm_num)
          omega
        obtain ⟨ds, d, hds, hd0, hd10, hall⟩ := ih ((m + 1) / 10) hpos hle'
        refine ⟨(m + 1) % 10 :: ds, d, ?_, hd0, hd10, ?_⟩
        · rw [hstep, hds]; rfl
        · intro e he
          rcases List.mem_cons.mp he with h | h
          · subst h; exact Nat.mod_lt _ (by norm_num)
          · exact hall e h

theorem natDigits_concat {n : ℕ} (hn : 0 < n) :
    ∃ ds d, natDigits n = ds ++ [d] ∧ 0 < d ∧ d < 10 ∧ ∀ e ∈ ds, e < 10 :=
  toDecAux_concat n n hn le_rfl

/-- ASCII decoding is a left inverse of `digitChar` on digits. -/
theorem digitChar_toNat {d : ℕ} (hd : d < 10) : (digitChar d).toNat - 48 = d := by
  interval_cases d <;> decide

theorem digitChar_ne_zero_char {d : ℕ} (hd : d < 10) (hd0 : 0 < d) :
    (digitChar d == '0') = false := by
  interval_cases d <;> decide

/-- Decode a zero-filled decimal character list back to its number. -/
def decodeDec (cs : List Char) : ℕ :=
  fromDec (((cs.dropWhile (· == '0')).map (fun c => c.toNat - 48)).reverse)

theorem dropWhile_replicate_zero_append (k : ℕ) (l : List Char) :
    (List.replicate k '0' ++ l).dropWhile (· == '0') = l.dropWhile (· == '0') := by
  induction k with
  | zero => rfl
  | succ k ih => simp [List.replicate_succ, List.dropWhile, ih]

/-- Round trip: decoding Python `str(n).zfill(w)` recovers a positive `n`. -/
theorem decodeDec_zfill {n : ℕ} (hn : 0 < n) (w : ℕ) :
    decodeDec (zfillChars w (decChars n)) = n := by
  obtain ⟨ds, d, hds, hd0, hd10, hall⟩ := natDigits_concat hn
  have hnz : n ≠ 0 := by omega
  have hchars : decChars n = digitChar d :: ds.reverse.map digitChar := by
    simp [decChars, hnz, hds]
  unfold decodeDec zfillChars
  rw [dropWhile_replicate_zero_append, hchars, List.dropWhile_cons,
    digitChar_ne_zero_char hd10 hd0]
  simp only [Bool.false_eq_true, if_false]
  have hmap : (digitChar d :: ds.reverse.map digitChar).map (fun c => c.toNat - 48)
      = d :: ds.reverse := by
    simp only [List.map_cons, List.map_map, digitChar_toNat hd10, List.cons.injEq, true_and]
    rw [List.map_congr_left, List.map_id]
    intro e he
    exact digitChar_toNat (hall e (List.mem_reverse.mp he))
  rw [hmap]
  have : (d :: ds.reverse).reverse = ds ++ [d] := by simp
  rw [this, ← hds, fromDec_natDigits]

/-! ## Chunk Splitter (`TextChunker._chunk_text`, `text_chunker.py` lines 67–106)

The loop slides a window of `chunk_size` characters; the next window starts at
`end - chunk_overlap` unless the window reached the end of the text.  It is
modelled fuel-based over the character list; each produced window records the
loop's `start` and `end` values together with the slice `text[start:end]`. -/

/-- One produced window: the loop's `start`/`end` offsets and the slice. -/
structure Window where
  start : ℕ
  stop : ℕ
  text : List Char
  deriving DecidableEq, Repr

/-- The `while start < len(text)` loop of `_chunk_text`, windows only.
`none` models a loop that fails to finish within `fuel` iterations. -/
def chunkLoop (W O : ℕ) (text : List Char) : ℕ → ℕ → Option (List Window)
  | 0, _ => none
  | fuel + 1, start =>
    if start < text.length then
      let e := min (start + W) text.length
      let slice := (text.drop start).take (e - start)
      let next := if e < text.length then e - O else text.length
      match chunkLoop W O text fuel next with
      | some rest => some (⟨start, e, slice⟩ :: rest)
      | none => none
    else
      some []

/-- All windows produced for `text` (fuel `|text| + 1` suffices whenever the
loop terminates at all, since the cursor strictly advances each iteration). -/
def chunkWindows (W O : ℕ) (text : List Char) : Option (List Window) :=
  chunkLoop W O text (text.length + 1) 0

/-- Invariant carried through `chunkLoop`: full coverage of `[start, L)`,
in-bounds windows holding the right slice, and the chaining facts (every
non-final window has length exactly `W`; the next window starts `O` before
the previous one ends and reaches at least as far). -/
def chunkSpec (W O : ℕ) (text : List Char) (start : ℕ) (ws : List Window) : Prop :=
  (∀ w ∈ ws, w.stop ≤ text.length ∧ w.start < w.stop ∧
      w.stop = min (w.start + W) text.length ∧
      w.text = (text.drop w.start).take (w.stop - w.start)) ∧
  (∀ x, start ≤ x → x < text.length → ∃ w ∈ ws, w.start ≤ x ∧ x < w.stop) ∧
  List.Chain' (fun a b => a.stop = a.start + W ∧ b.start + O = a.stop ∧ a.stop ≤ b.stop) ws ∧
  (∀ w, ws.head? = some w → w.start = start)

theorem chunkLoop_spec (W O : ℕ) (hW : 0 < W) (hO : O < W) (text : List Char) :
    ∀ fuel start, text.length - start < fuel →
      ∃ ws, chunkLoop W O text fuel start = some ws ∧ chunkSpec W O text start ws := by
  intro fuel
  induction fuel with
  | zero => intro start h; omega
  | succ fuel ih =>
    intro start hfuel
    by_cases hs : start < text.length
    · set e := min (start + W) text.length with he
      have heL : e ≤ text.length := min_le_right _ _
      have hse : start < e := by
        have : start + 1 ≤ start + W := by omega
        simp only [he, lt_min_iff]
        omega
      by_cases hend : e < text.length
      · -- window did not reach the end: next = e - O, and e = start + W
        have heW : e = start + W := by
          rcases min_cases (start + W) text.length with ⟨h1, _⟩ | ⟨h1, h2⟩
          · omega
          · omega
        have hnext : e - O > start := by omega
        have hfuel' : text.length - (e - O) < fuel := by omega
        obtain ⟨rest, hrest, hspec⟩ := ih (e - O) hfuel'
        refine ⟨⟨start, e, (text.drop start).take (e - start)⟩ :: rest, ?_, ?_, ?_, ?_, ?_⟩
        · simp only [chunkLoop, if_pos hs, ← he, if_pos hend, hrest]
        · intro w hw
          rcases List.mem_cons.mp hw with h | h
          · subst h; exact ⟨heL, hse, he, rfl⟩
          · exact hspec.1 w h
        · intro x hx hxL
          by_cases hxe : x < e
          · exact ⟨_, List.mem_cons_self _ _, hx, hxe⟩
          · obtain ⟨w, hw, h1, h2⟩ := hspec.2.1 x (by omega) hxL
            exact ⟨w, List.mem_cons_of_mem _ hw, h1, h2⟩
        · -- chain: head of rest starts at e - O and reaches at least e
          rcases rest with _ | ⟨b, rest'⟩
          · simp
          · have hb : b.start = e - O := hspec.2.2.2 b rfl
            have hbmem := hspec.1 b (List.mem_cons_self _ _)
            refine List.chain'_cons.mpr ⟨⟨?_, ?_, ?_⟩, hspec.2.2.1⟩
            · show e = start + W
              exact heW
            · show b.start + O = e
              omega
            · show e ≤ b.stop
              have hbstop : b.stop = min (b.start + W) text.length := hbmem.2.2.1
              have h1 : e ≤ b.start + W := by omega
              rw [hbstop]
              exact le_min h1 heL
        · intro w hw
          simp only [List.head?_cons, Option.some.injEq] at hw
          subst hw; rfl
      · -- window reached the end: e = text.length, next = text.length, loop ends
        have heEq : e = text.length := by omega
        have hfuel' : text.length - text.length < fuel := by omega
        obtain ⟨rest, hrest, hspec⟩ := ih text.length hfuel'
        have hrest_nil : rest = [] := by
          rcases rest with _ | ⟨b, rest'⟩
          · rfl
          · exfalso
            have hbmem := hspec.1 b (List.mem_cons_self _ _)
            have hb : b.start = text.length := hspec.2.2.2 b rfl
            have := hbmem.1
            have := hbmem.2.1
            omega
        subst hrest_nil
        refine ⟨[⟨start, e, (text.drop start).take (e - start)⟩], ?_, ?_, ?_, ?_, ?_⟩
        · simp only [chunkLoop, if_pos hs, ← he, if_neg hend, hrest]
        · intro w hw
          rcases List.mem_cons.mp hw with h | h
          · subst h; exact ⟨heL, hse, he, rfl⟩
          · simp at h
        · intro x hx hxL
          refine ⟨_, List.mem_cons_self _ _, hx, ?_⟩
          show x < e
          omega
        · simp
        · intro w hw
          simp only [List.head?_cons, Option.some.injEq] at hw
          subst hw; rfl
    · refine ⟨[], by simp [chunkLoop, hs], ?_, ?_, ?_, ?_⟩
      · intro w hw; simp at hw
      · intro x hx hxL; omega
      · simp
      · intro w hw; simp at hw

/-- Claim C5 — Chunk coverage: for every text, window size `W > 0` and overlap
`O < W`, the splitter terminates with a list of windows whose character ranges
stay inside `[0, L)` and cover it with no gaps; every window that has a
successor has length exactly `W` (so only the last may be truncated); and each
consecutive pair overlaps in exactly the `O` characters `[b.start, a.stop)`
(the successor starts `O` before its predecessor ends and reaches at least as
far). -/
theorem chunk_coverage (W O : ℕ) (text : List Char) (hW : 0 < W) (hO : O < W) :
    ∃ ws, chunkWindows W O text = some ws ∧
      (∀ w ∈ ws, w.stop ≤ text.length) ∧
      (∀ x, x < text.length → ∃ w ∈ ws, w.start ≤ x ∧ x < w.stop) ∧
      List.Chain' (fun a b => a.stop = a.start + W ∧ b.start + O = a.stop ∧ a.stop ≤ b.stop) ws := by
  obtain ⟨ws, hws, hspec⟩ :=
    chunkLoop_spec W O hW hO text (text.length + 1) 0 (by omega)
  exact ⟨ws, hws, fun w hw => (hspec.1 w hw).1,
    fun x hx => hspec.2.1 x (Nat.zero_le x) hx, hspec.2.2.1⟩

/-- Witness for C5 at a concrete input: text of length 7, `W = 3`, `O = 1`. -/
theorem chunk_coverage_witness :
    ∃ ws, chunkWindows 3 1 "contoso".data = some ws ∧
      (∀ w ∈ ws, w.stop ≤ "contoso".data.length) ∧
      (∀ x, x < "contoso".data.length → ∃ w ∈ ws, w.start ≤ x ∧ x < w.stop) ∧
      List.Chain' (fun a b => a.stop = a.start + 3 ∧ b.start + 1 = a.stop ∧ a.stop ≤ b.stop) ws :=
  chunk_coverage 3 1 "contoso".data (by decide) (by decide)

/-! ## Insertion-ordered dictionaries

Python dict semantics: assigning to an existing key replaces the value in
place (keeping its position), assigning a fresh key appends. -/

/-- Python `d[k] = v` on an insertion-ordered association list. -/
def setKey {α β : Type} [BEq α] [DecidableEq α] (l : List (α × β)) (k : α) (v : β) :
    List (α × β) :=
  if (l.lookup k).isSome then
    l.map (fun p => if p.1 = k then (k, v) else p)
  else
    l ++ [(k, v)]

/-- Python `del d[k]`. -/
def delKey {α β : Type} [DecidableEq α] (l : List (α × β)) (k : α) : List (α × β) :=
  l.filter (fun p => !(decide (p.1 = k)))

theorem lookup_setKey_self {α β : Type} [BEq α] [LawfulBEq α] [DecidableEq α]
    (l : List (α × β)) (k : α) (v : β) : (setKey l k v).lookup k = some v := by
  unfold setKey
  split
  case isTrue h =>
    induction l with
    | nil => simp [List.lookup] at h
    | cons p tl ih =>
      obtain ⟨a, w⟩ := p
      by_cases ha : a = k
      · subst ha
        have hmap : List.map (fun p => if p.1 = a then (a, v) else p) ((a, w) :: tl)
            = (a, v) :: List.map (fun p => if p.1 = a then (a, v) else p) tl := by simp
        rw [hmap]
        simp [List.lookup]
      · have hmap : List.map (fun p => if p.1 = k then (k, v) else p) ((a, w) :: tl)
            = (a, w) :: List.map (fun p => if p.1 = k then (k, v) else p) tl := by simp [ha]
        rw [hmap]
        have hk' : (k == a) = false := beq_false_of_ne (Ne.symm ha)
        simp only [List.lookup, hk'] at h ⊢
        exact ih h
  case isFalse h =>
    induction l with
    | nil => simp [List.lookup]
    | cons p tl ih =>
      obtain ⟨a, w⟩ := p
      by_cases ha : a = k
      · subst ha
        simp [List.lookup] at h
      · have hk' : (k == a) = false := beq_false_of_ne (Ne.symm ha)
        simp only [List.lookup, hk'] at h ⊢
        exact ih h

/-- Claim C6 — the code has no guard at all: `TextChunker.__init__`
(`text_chunker.py` lines 11–17) stores any `chunk_size`/`chunk_overlap`
unchecked, and with `chunk_overlap = chunk_size = 2` on a 3-character text the
`_chunk_text` cursor recomputes `start = end - overlap = 0` forever, so the
loop completes under no amount of fuel.  (Under the precondition
`overlap < window_size` termination does hold — see `chunk_coverage`.) -/
theorem chunkLoop_no_guard_diverges :
    ∀ fuel, chunkLoop 2 2 "abc".data fuel 0 = none := by
  intro fuel
  induction fuel with
  | zero => rfl
  | succ fuel ih =>
    show (match chunkLoop 2 2 "abc".data fuel 0 with
      | some rest => some (⟨0, 2, "ab".data⟩ :: rest)
      | none => none) = none
    rw [ih]

/-! ## Data model (`document_registry.json` schema, `document_loader.py`)

Fields that Python code reads with `.get(..., default)` or guards with
`"key" in entry` are `Option`s; fields accessed unconditionally are plain. -/

/-- One entry of `registry["documents"]`. -/
structure DocEntry where
  status : String
  lastProcessed : String
  documentId : Option String
  md5Hash : String
  batchId : Option String
  effectiveDate : Option String
  chunkCount : Option ℕ
  deriving DecidableEq, Repr

/-- One entry of `registry["batches"]`. -/
structure BatchEntry where
  createdAt : String
  effectiveDate : String
  documentCount : ℕ
  deriving DecidableEq, Repr

/-- The document registry (`document_registry.json`). -/
structure Registry where
  documents : List (String × DocEntry)
  batches : List (String × BatchEntry)
  lastUpdate : String
  totalDocuments : ℕ
  totalChunks : ℕ
  totalBatches : ℕ
  deriving DecidableEq, Repr

/-- The fresh registry created by `DocumentLoader._load_registry` when no
registry file exists. -/
def freshRegistry (now : String) : Registry :=
  { documents := [], batches := [], lastUpdate := now
    totalDocuments := 0, totalChunks := 0, totalBatches := 0 }

/-- Chunk metadata as built inline in `fully_process_document` (cli.py
lines 177–205): the document metadata dict plus `section` and `chunk_num`.
`sectionLabel` models the dict key `"section"`. -/
structure ChunkMeta where
  documentId : String
  title : String
  filename : String
  batchId : String
  effectiveDate : String
  sectionLabel : String
  chunkNum : ℕ
  deriving DecidableEq, Repr

/-- A chunk object / persisted chunk file (`{chunk_id}.json`). -/
structure ChunkRec where
  chunkId : String
  text : List Char
  metadata : ChunkMeta
  deriving DecidableEq, Repr

/-- An `id_to_chunk` value (`{'chunk_id': ..., 'metadata': ...}`). -/
structure IdxMeta where
  chunkId : String
  metadata : ChunkMeta
  deriving DecidableEq, Repr

/-- The durable state touched by the ingestion pipeline: the raw-document
directory (read-only here), the `full_text` and `chunks` stores, the vector
index (vectors, id→chunk map, next-id counter) and the registry.
`γ` is the opaque type of raw source-file contents. -/
structure SysState (γ : Type) where
  rawFiles : List (String × γ)
  fullText : List (String × List Char)
  chunkFiles : List (String × ChunkRec)
  indexVectors : List (ℕ × List ℚ)
  idToChunk : List (ℕ × IdxMeta)
  indexNextId : ℕ
  registry : Registry
  deriving Repr

/-- External collaborators and configuration of the pipeline.
`md5` models `DocumentLoader._calculate_md5` (any deterministic digest of the
bytes), `extract` models `DocumentLoader.extract_document_text` (which may
raise on unsupported formats), `embed` models `VectorIndexer.get_embedding`
(which may raise on collaborator failure), `sectionOf` models the pure
`re.search` heading scan over the first 200 characters of a chunk, and `now`
models `datetime.now().isoformat()`. -/
structure Cfg (γ : Type) where
  md5 : γ → String
  extract : String → γ → Except String (List Char)
  embed : List Char → Except String (List ℚ)
  sectionOf : List Char → String
  chunkSize : ℕ
  chunkOverlap : ℕ
  now : String

/-- The `(success, doc_id, chunk_count, error_msg)` tuple returned by
`fully_process_document`. -/
structure PResult where
  success : Bool
  docId : Option String
  chunkCount : ℕ
  errorMsg : Option String
  deriving DecidableEq, Repr

/-- The failure tuple built in the `except` handler (cli.py lines 302–305). -/
def errResult (filename msg : String) : PResult :=
  ⟨false, none, 0, some ("Error processing document " ++ filename ++ ": " ++ msg)⟩

/-! ## `BizBrainCLI.fully_process_document` (cli.py lines 119–305) -/

/-- The inline chunking loop of `fully_process_document` (cli.py lines
186–218), identical in shape to `TextChunker._chunk_text` but building chunk
objects with ids and metadata.  Fuel-based; `none` models non-termination. -/
def cliChunkLoop (W O : ℕ) (sectionOf : List Char → String)
    (docId title filename batchId effectiveDate : String) (text : List Char) :
    ℕ → ℕ → ℕ → Option (List ChunkRec)
  | 0, _, _ => none
  | fuel + 1, start, chunkNum =>
    if start < text.length then
      let e := min (start + W) text.length
      let chunkText := (text.drop start).take (e - start)
      let chunkId := docId ++ "_chunk_" ++ zfill 3 chunkNum
      let sec := sectionOf (chunkText.take 200)
      let next := if e < text.length then e - O else text.length
      match cliChunkLoop W O sectionOf docId title filename batchId effectiveDate text
          fuel next (chunkNum + 1) with
      | some rest =>
          some (⟨chunkId, chunkText,
            ⟨docId, title, filename, batchId, effectiveDate, sec, chunkNum⟩⟩ :: rest)
      | none => none
    else
      some []

/-- All chunks of a document text (`chunks = []; start = 0; chunk_num = 0; …`). -/
def mkChunks (W O : ℕ) (sectionOf : List Char → String)
    (docId title filename batchId effectiveDate : String) (text : List Char) :
    Option (List ChunkRec) :=
  cliChunkLoop W O sectionOf docId title filename batchId effectiveDate text
    (text.length + 1) 0 0

/-- Under `overlap < chunk_size` the cursor strictly advances, so the loop
terminates within `|text| - start + 1` iterations. -/
theorem cliChunkLoop_total (W O : ℕ) (hO : O < W)
    (sectionOf : List Char → String) (docId title filename batchId effectiveDate : String)
    (text : List Char) :
    ∀ fuel start chunkNum, text.length - start < fuel →
      (cliChunkLoop W O sectionOf docId title filename batchId effectiveDate text
        fuel start chunkNum).isSome = true := by
  intro fuel
  induction fuel with
  | zero => intro start num h; omega
  | succ fuel ih =>
    intro start num hfuel
    by_cases hs : start < text.length
    · set e := min (start + W) text.length with he
      by_cases hend : e < text.length
      · have heW : e = start + W := by
          rcases min_cases (start + W) text.length with ⟨h1, _⟩ | ⟨h1, h2⟩ <;> omega
        have hfuel' : text.length - (e - O) < fuel := by omega
        have hrec := ih (e - O) (num + 1) hfuel'
        obtain ⟨cs, hcs⟩ := Option.isSome_iff_exists.mp hrec
        simp only [cliChunkLoop, if_pos hs, ← he, if_pos hend, hcs]
        rfl
      · have hfuel' : text.length - text.length < fuel := by omega
        have hrec := ih text.length (num + 1) hfuel'
        obtain ⟨cs, hcs⟩ := Option.isSome_iff_exists.mp hrec
        simp only [cliChunkLoop, if_pos hs, ← he, if_neg hend, hcs]
        rfl
    · simp [cliChunkLoop, hs]

/-- The embedding loop of step 3 (cli.py lines 220–231): embed every chunk in
order, propagating the first collaborator exception. -/
def embedAll (embed : List Char → Except String (List ℚ)) :
    List ChunkRec → Except String (List (List ℚ))
  | [] => .ok []
  | c :: cs =>
    match embed c.text with
    | .error e => .error e
    | .ok v =>
      match embedAll embed cs with
      | .error e => .error e
      | .ok vs => .ok (v :: vs)

theorem embedAll_error (embed : List Char → Except String (List ℚ))
    (l : List ChunkRec) (h : ∃ c ∈ l, (embed c.text).isOk = false) :
    ∃ e, embedAll embed l = .error e := by
  induction l with
  | nil => simp at h
  | cons c cs ih =>
    obtain ⟨c', hc', he⟩ := h
    rcases List.mem_cons.mp hc' with h1 | h1
    · subst h1
      rcases hv : embed c'.text with e0 | v
      · exact ⟨e0, by simp only [embedAll, hv]⟩
      · rw [hv] at he
        simp [Except.isOk, Except.toBool] at he
    · rcases hv : embed c.text with e0 | v
      · exact ⟨e0, by simp only [embedAll, hv]⟩
      · obtain ⟨e1, he1⟩ := ih ⟨c', h1, he⟩
        exact ⟨e1, by simp only [embedAll, hv, he1]⟩

theorem embedAll_length (embed : List Char → Except String (List ℚ)) :
    ∀ l vs, embedAll embed l = .ok vs → vs.length = l.length := by
  intro l
  induction l with
  | nil => intro vs h; cases h; rfl
  | cons c cs ih =>
    intro vs h
    simp only [embedAll] at h
    rcases hv : embed c.text with e | v <;> rw [hv] at h
    · cases h
    · rcases hrec : embedAll embed cs with e | vs' <;> rw [hrec] at h
      · cases h
      · cases h
        simp [ih vs' hrec]

/-- Document-id assignment (cli.py lines 168–173): reuse the record's
existing `document_id` when present, else `doc_` + next sequential number. -/
def assignDocId {γ : Type} (st : SysState γ) (filename : String) : String :=
  match st.registry.documents.lookup filename with
  | some e =>
    match e.documentId with
    | some did => did
    | none => "doc_" ++ zfill 3 (st.registry.documents.length + 1)
  | none => "doc_" ++ zfill 3 (st.registry.documents.length + 1)

/-- Steps 2–7 of `fully_process_document` (after the step-1 short-circuit
check): extract, chunk, embed in memory; then, only if everything succeeded,
write the full text, the chunk files, the vector index, and last of all the
registry. -/
def fullyProcessRest {γ : Type} (cfg : Cfg γ) (st : SysState γ)
    (filename batchId effectiveDate : String) (content : γ) (md5 : String) :
    Option (PResult × SysState γ) :=
  match cfg.extract filename content with
  | .error e => some (errResult filename e, st)
  | .ok text =>
    let docId := assignDocId st filename
    match mkChunks cfg.chunkSize cfg.chunkOverlap cfg.sectionOf
        docId filename filename batchId effectiveDate text with
    | none => none
    | some chunks =>
      match embedAll cfg.embed chunks with
      | .error e => some (errResult filename e, st)
      | .ok embeddings =>
        -- Step 4: save the full text
        let st4 := { st with
          fullText := setKey st.fullText (docId ++ "_full.txt") text }
        -- Step 5: save chunk files
        let st5 := { st4 with
          chunkFiles := chunks.foldl
            (fun (acc : List (String × ChunkRec)) (c : ChunkRec) =>
              setKey acc (c.chunkId ++ ".json") c) st4.chunkFiles }
        -- Step 6: vector index (`if embeddings:`)
        let st6 :=
          if embeddings.isEmpty then st5
          else
            let ids := List.range' st5.indexNextId embeddings.length
            { st5 with
              indexVectors := st5.indexVectors ++ ids.zip embeddings
              idToChunk := (ids.zip chunks).foldl
                (fun (acc : List (ℕ × IdxMeta)) (p : ℕ × ChunkRec) =>
                  setKey acc p.1 ⟨p.2.chunkId, p.2.metadata⟩) st5.idToChunk
              indexNextId := st5.indexNextId + embeddings.length }
        -- Step 7: registry update, persisted last
        let newEntry : DocEntry :=
          ⟨"processed", cfg.now, some docId, md5, some batchId, some effectiveDate,
            some chunks.length⟩
        let docs := setKey st6.registry.documents filename newEntry
        let batches :=
          match st6.registry.batches.lookup batchId with
          | some b => setKey st6.registry.batches batchId
              { b with documentCount := b.documentCount + 1 }
          | none => st6.registry.batches
        let totalDocs :=
          if docs.length > st6.registry.totalDocuments then docs.length
          else st6.registry.totalDocuments
        let totalChunks := (docs.map (fun p => p.2.chunkCount.getD 0)).sum
        let reg := { st6.registry with
          documents := docs, batches := batches, totalDocuments := totalDocs
          totalChunks := totalChunks, lastUpdate := cfg.now }
        some (⟨true, some docId, chunks.length, none⟩, { st6 with registry := reg })

/-- `BizBrainCLI.fully_process_document`.  Returns `none` when the inner
chunking loop diverges; otherwise `some (result, post-state)`.  Any Python
exception in steps 1–6 is caught and becomes `errResult` with the pre-call
state unchanged. -/
def fullyProcessDocument {γ : Type} (cfg : Cfg γ) (st : SysState γ)
    (filename batchId effectiveDate : String) : Option (PResult × SysState γ) :=
  match st.rawFiles.lookup filename with
  | none => some (errResult filename "No such file or directory", st)
  | some content =>
    let md5 := cfg.md5 content
    match st.registry.documents.lookup filename with
    | some e =>
      if e.md5Hash = md5 ∧ e.status = "processed" then
        match e.documentId with
        | some did => some (⟨true, some did, e.chunkCount.getD 0, none⟩, st)
        | none => some (errResult filename "KeyError: document_id", st)
      else
        fullyProcessRest cfg st filename batchId effectiveDate content md5
    | none => fullyProcessRest cfg st filename batchId effectiveDate content md5

/-- Inversion of a successful `fullyProcessRest` run: the result carries the
assigned document id and chunk count, the raw store is untouched, and the
registry's record for the file is the freshly written `processed` entry. -/
theorem fullyProcessRest_success {γ : Type} (cfg : Cfg γ) (st : SysState γ)
    (f b d : String) (content : γ) (md5 : String) (r : PResult) (st' : SysState γ)
    (h : fullyProcessRest cfg st f b d content md5 = some (r, st'))
    (hs : r.success = true) :
    ∃ cnt, r = ⟨true, some (assignDocId st f), cnt, none⟩ ∧
      st'.rawFiles = st.rawFiles ∧
      st'.registry.documents.lookup f
        = some ⟨"processed", cfg.now, some (assignDocId st f), md5, some b, some d,
            some cnt⟩ := by
  unfold fullyProcessRest at h
  rcases hx : cfg.extract f content with e | text <;> simp only [hx] at h
  · injection h with hpair
    injection hpair with h1 h2
    subst h1
    simp [errResult] at hs
  · rcases hch : mkChunks cfg.chunkSize cfg.chunkOverlap cfg.sectionOf
        (assignDocId st f) f f b d text with _ | chunks <;> simp only [hch] at h
    · exact Option.noConfusion h
    · rcases hem : embedAll cfg.embed chunks with e | vs <;> simp only [hem] at h
      · injection h with hpair
        injection hpair with h1 h2
        subst h1
        simp [errResult] at hs
      · injection h with hpair
        injection hpair with h1 h2
        subst h1
        subst h2
        refine ⟨chunks.length, rfl, ?_, ?_⟩
        · by_cases hemp : vs.isEmpty
          all_goals simp [hemp]
        · by_cases hemp : vs.isEmpty
          all_goals simp [hemp]
          all_goals exact lookup_setKey_self _ _ _

/-- Claim C1 — Atomicity of ingestion: whenever the embedding collaborator
fails on any produced segment (the earlier steps having got that far: the
file exists, the step-1 short-circuit did not fire, extraction succeeded),
`fully_process_document` returns the failure tuple and the post-state is the
pre-state: no full-text file, no chunk file, no vector-index entry and no
registry entry were added, and registry, counters and index are unchanged. -/
theorem ingestion_atomic_on_embedding_failure {γ : Type} (cfg : Cfg γ) (st : SysState γ)
    (filename batchId effectiveDate : String) (content : γ) (text : List Char)
    (chunks : List ChunkRec)
    (hraw : st.rawFiles.lookup filename = some content)
    (hsc : ∀ e, st.registry.documents.lookup filename = some e →
      ¬(e.md5Hash = cfg.md5 content ∧ e.status = "processed"))
    (hext : cfg.extract filename content = .ok text)
    (hchunks : mkChunks cfg.chunkSize cfg.chunkOverlap cfg.sectionOf
      (assignDocId st filename) filename filename batchId effectiveDate text = some chunks)
    (hfail : ∃ c ∈ chunks, (cfg.embed c.text).isOk = false) :
    ∃ msg, fullyProcessDocument cfg st filename batchId effectiveDate
      = some (errResult filename msg, st) := by
  obtain ⟨msg, hm⟩ := embedAll_error cfg.embed chunks hfail
  refine ⟨msg, ?_⟩
  rcases hdoc : st.registry.documents.lookup filename with _ | e
  · simp only [fullyProcessDocument, hraw, hdoc, fullyProcessRest, hext, hchunks, hm]
  · have hcond := hsc e hdoc
    simp only [fullyProcessDocument, hraw, hdoc, if_neg hcond, fullyProcessRest,
      hext, hchunks, hm]

/-- Claim C3 — Idempotent re-ingestion: if a call to
`fully_process_document` succeeded, calling it again on the resulting state
with the same unchanged file returns the identical `(success, doc_id,
chunk_count, error)` tuple and the identical state — in particular the
registry's `total_documents`/`total_chunks` and all stores are unchanged by
the second call. -/
theorem reingestion_idempotent {γ : Type} (cfg : Cfg γ) (st : SysState γ)
    (f b d : String) (r : PResult) (st' : SysState γ)
    (h1 : fullyProcessDocument cfg st f b d = some (r, st'))
    (hs : r.success = true) :
    fullyProcessDocument cfg st' f b d = some (r, st') := by
  have h0 := h1
  unfold fullyProcessDocument at h1
  rcases hraw : st.rawFiles.lookup f with _ | content <;> simp only [hraw] at h1
  · injection h1 with hpair
    injection hpair with h2 h3
    subst h2
    simp [errResult] at hs
  · rcases hdoc : st.registry.documents.lookup f with _ | e <;> simp only [hdoc] at h1
    · -- no prior record: the full pipeline ran
      obtain ⟨cnt, hr, hraw', hlook⟩ :=
        fullyProcessRest_success cfg st f b d content (cfg.md5 content) r st' h1 hs
      subst hr
      have hraw2 : st'.rawFiles.lookup f = some content := by rw [hraw']; exact hraw
      simp only [fullyProcessDocument, hraw2, hlook]
      rfl
    · by_cases hc : e.md5Hash = cfg.md5 content ∧ e.status = "processed"
      · rw [if_pos hc] at h1
        rcases hdid : e.documentId with _ | did <;> simp only [hdid] at h1
        · injection h1 with hpair
          injection hpair with h2 h3
          subst h2
          simp [errResult] at hs
        · injection h1 with hpair
          injection hpair with h2 h3
          subst h2
          subst h3
          exact h0
      · rw [if_neg hc] at h1
        obtain ⟨cnt, hr, hraw', hlook⟩ :=
          fullyProcessRest_success cfg st f b d content (cfg.md5 content) r st' h1 hs
        subst hr
        have hraw2 : st'.rawFiles.lookup f = some content := by rw [hraw']; exact hraw
        simp only [fullyProcessDocument, hraw2, hlook]
        rfl

/-- Concrete pipeline configuration for the C1 witness: a six-character
document chunked into the three segments `ab`, `cd`, `ef` with `W = 2`,
`O = 0`; the embedding collaborator fails deterministically on the second
segment `cd`. -/
def cfgC1 : Cfg Unit :=
  { md5 := fun _ => "h1"
    extract := fun _ _ => .ok "abcdef".data
    embed := fun t => if t = "cd".data then .error "embedding service failure" else .ok [1]
    sectionOf := fun _ => "Unknown section"
    chunkSize := 2, chunkOverlap := 0, now := "t0" }

/-- Pre-call state for the C1 witness: one raw file, everything else empty. -/
def stC1 : SysState Unit :=
  { rawFiles := [("contract.pdf", ())], fullText := [], chunkFiles := []
    indexVectors := [], idToChunk := [], indexNextId := 0, registry := freshRegistry "t" }

/-- Witness for C1: embedding fails deterministically on the second of three
segments and the call returns the failure tuple with the state unchanged. -/
theorem ingestion_atomic_witness :
    ∃ msg, fullyProcessDocument cfgC1 stC1 "contract.pdf" "batch_001" "2024-05-01"
      = some (errResult "contract.pdf" msg, stC1) :=
  ingestion_atomic_on_embedding_failure cfgC1 stC1 "contract.pdf" "batch_001" "2024-05-01"
    () "abcdef".data _
    rfl
    (by intro e h; simp [stC1, freshRegistry, List.lookup] at h)
    rfl
    rfl
    (by decide)

/-- Concrete configuration and state for the C3 witness: `notes.docx` is
already recorded as `processed` with a matching hash, so re-ingestion
short-circuits. -/
def cfgC3 : Cfg Unit :=
  { md5 := fun _ => "hash3", extract := fun _ _ => .error "unused"
    embed := fun _ => .ok [], sectionOf := fun _ => "s"
    chunkSize := 5, chunkOverlap := 1, now := "t3" }

def stC3 : SysState Unit :=
  { rawFiles := [("notes.docx", ())]
    fullText := [("doc_001_full.txt", "hello".data)]
    chunkFiles := [], indexVectors := [], idToChunk := [], indexNextId := 1
    registry :=
      { documents := [("notes.docx",
          ⟨"processed", "t2", some "doc_001", "hash3", some "batch_001",
            some "2024-01-01", some 3⟩)]
        batches := [], lastUpdate := "t2"
        totalDocuments := 1, totalChunks := 3, totalBatches := 0 } }

/-- Witness for C3 at a concrete input where the first call succeeded. -/
theorem reingestion_idempotent_witness :
    fullyProcessDocument cfgC3 stC3 "notes.docx" "batch_002" "2024-02-02"
      = some (⟨true, some "doc_001", 3, none⟩, stC3) :=
  reingestion_idempotent cfgC3 stC3 "notes.docx" "batch_002" "2024-02-02"
    ⟨true, some "doc_001", 3, none⟩ stC3 rfl rfl

/-- Concrete configuration for C2: extraction yields the empty string (e.g.
a scanned PDF whose OCR produced nothing). -/
def cfgC2 : Cfg Unit :=
  { md5 := fun _ => "d41d8"
    extract := fun _ _ => .ok []
    embed := fun _ => .ok [0]
    sectionOf := fun _ => "Unknown section"
    chunkSize := 1000, chunkOverlap := 200, now := "t1" }

def stC2 : SysState Unit :=
  { rawFiles := [("empty.pdf", ())], fullText := [], chunkFiles := []
    indexVectors := [], idToChunk := [], indexNextId := 0, registry := freshRegistry "t" }

/-- Claim C2 is violated by the atomic pipeline: `fully_process_document`
performs no empty/whitespace-only check (that guard exists only in the legacy
`DocumentLoader.process_document`, lines 236–246).  With empty extracted text
the call SUCCEEDS, writes an empty full-text file, and persists a registry
record with `status = "processed"` and `chunk_count = 0`. -/
theorem empty_extraction_processed_bug :
    ∃ st' : SysState Unit,
      fullyProcessDocument cfgC2 stC2 "empty.pdf" "batch_auto" "2025-01-01"
        = some (⟨true, some "doc_001", 0, none⟩, st') ∧
      st'.registry.documents.lookup "empty.pdf"
        = some ⟨"processed", "t1", some "doc_001", "d41d8", some "batch_auto",
            some "2025-01-01", some 0⟩ ∧
      st'.fullText.lookup "doc_001_full.txt" = some [] ∧
      st'.registry.totalDocuments = 1 ∧
      st'.registry.totalChunks = 0 :=
  ⟨_, rfl, rfl, rfl, rfl, rfl⟩

/-! ## Vector Index id assignment (`vector_indexer.py`)

`add_embeddings_bulk` (lines 117–164) assigns `ids = arange(next_id,
next_id + len(embeddings))`, updates `id_to_chunk`, advances `next_id` and
persists both structures; `_load_or_create_index` (lines 21–54) rebuilds
`next_id` on a restart as `max(id_to_chunk.keys()) + 1`, or `0` if empty.
Because `_save_index` runs after every successful bulk add, the persisted
state equals the in-memory state, so a restart is modelled as recomputing
`next_id` from the current map. -/

/-- In-memory (equals persisted) state of `VectorIndexer`. -/
structure VIState where
  nextId : ℕ
  vectors : List (ℕ × List ℚ)
  idToChunk : List (ℕ × IdxMeta)
  deriving Repr

/-- The state `_load_or_create_index` builds when nothing is persisted. -/
def initVI : VIState := { nextId := 0, vectors := [], idToChunk := [] }

/-- `VectorIndexer.add_embeddings_bulk`: returns `(ok, assigned ids)` and the
new state.  The guard `if not embeddings or not chunk_data: return False` and
the `ValueError` on a length mismatch (caught by the `except`) leave the state
unchanged and assign nothing. -/
def addEmbeddingsBulk (st : VIState) (embeddings : List (List ℚ))
    (chunkData : List IdxMeta) : (Bool × List ℕ) × VIState :=
  if embeddings.isEmpty || chunkData.isEmpty then ((false, []), st)
  else if embeddings.length ≠ chunkData.length then ((false, []), st)
  else
    let ids := List.range' st.nextId embeddings.length
    (((true, ids)),
      { nextId := st.nextId + embeddings.length
        vectors := st.vectors ++ ids.zip embeddings
        idToChunk := (ids.zip chunkData).foldl
          (fun acc p => setKey acc p.1 p.2) st.idToChunk })

/-- A restart: `_load_or_create_index` reloads the persisted index and map
and rebuilds `next_id = max(id_to_chunk.keys()) + 1` (`0` if empty). -/
def reloadIndex (st : VIState) : VIState :=
  { st with nextId :=
      if st.idToChunk.isEmpty then 0
      else (st.idToChunk.map Prod.fst).foldl max 0 + 1 }

/-- A history of bulk insertions interleaved with restarts. -/
inductive VIOp where
  | insert (embeddings : List (List ℚ)) (chunkData : List IdxMeta)
  | restart
  deriving Repr

/-- Run a history, collecting every assigned id in order. -/
def runVI : VIState → List VIOp → VIState × List ℕ
  | st, [] => (st, [])
  | st, VIOp.insert es cd :: ops =>
    let r := addEmbeddingsBulk st es cd
    let rest := runVI r.2 ops
    (rest.1, r.1.2 ++ rest.2)
  | st, VIOp.restart :: ops => runVI (reloadIndex st) ops

theorem foldl_max_eq (l : List ℕ) : ∀ a, l.foldl max a = max a (l.foldl max 0) := by
  induction l with
  | nil => intro a; simp
  | cons x t ih =>
    intro a
    show t.foldl max (max a x) = max a ((x :: t).foldl max 0)
    rw [ih (max a x)]
    show max (max a x) (t.foldl max 0) = max a (t.foldl max (max 0 x))
    rw [ih (max 0 x)]
    omega

theorem foldl_max_range' : ∀ n s, 0 < n →
    (List.range' s n).foldl max 0 = s + n - 1 := by
  intro n
  induction n with
  | zero => intro s h; omega
  | succ n ih =>
    intro s h
    rw [List.range'_succ]
    show (List.range' (s + 1) n).foldl max (max 0 s) = s + (n + 1) - 1
    rw [foldl_max_eq]
    by_cases hn : 0 < n
    · rw [ih (s + 1) hn]; omega
    · have : n = 0 := by omega
      subst this
      simp

theorem lookup_none_of_fresh {α β : Type} [BEq α] [LawfulBEq α] (l : List (α × β)) (k : α)
    (h : ∀ i ∈ l.map Prod.fst, i ≠ k) : l.lookup k = none := by
  induction l with
  | nil => rfl
  | cons p t ih =>
    have h1 : p.1 ≠ k := h p.1 (by simp)
    have hk : (k == p.1) = false := beq_false_of_ne (Ne.symm h1)
    obtain ⟨a, b⟩ := p
    simp only [List.lookup, hk]
    exact ih (fun i hi => h i (by simp [hi]))

theorem setKey_fresh {α β : Type} [BEq α] [LawfulBEq α] [DecidableEq α]
    (l : List (α × β)) (k : α) (v : β)
    (h : ∀ i ∈ l.map Prod.fst, i ≠ k) : setKey l k v = l ++ [(k, v)] := by
  unfold setKey
  rw [lookup_none_of_fresh l k h]
  simp

theorem map_fst_setKey_fresh {α β : Type} [BEq α] [LawfulBEq α] [DecidableEq α]
    (l : List (α × β)) (k : α) (v : β)
    (h : ∀ i ∈ l.map Prod.fst, i ≠ k) :
    (setKey l k v).map Prod.fst = l.map Prod.fst ++ [k] := by
  rw [setKey_fresh l k v h]
  simp

/-- Keys after bulk-updating `id_to_chunk` with ids `range' a |cs|`: the old
keys (all below `a`) followed by the new ids, in order. -/
theorem keys_foldl_setKey_zip :
    ∀ (cs : List IdxMeta) (a : ℕ) (l : List (ℕ × IdxMeta)),
      (∀ i ∈ l.map Prod.fst, i < a) →
      (((List.range' a cs.length).zip cs).foldl
          (fun acc p => setKey acc p.1 p.2) l).map Prod.fst
        = l.map Prod.fst ++ List.range' a cs.length := by
  intro cs
  induction cs with
  | nil => intro a l h; simp
  | cons c cs ih =>
    intro a l h
    have hr : List.range' a (c :: cs).length = a :: List.range' (a + 1) cs.length := by
      rw [List.length_cons, List.range'_succ]
    rw [hr]
    show (((a, c) :: (List.range' (a + 1) cs.length).zip cs).foldl
        (fun acc p => setKey acc p.1 p.2) l).map Prod.fst = _
    rw [List.foldl_cons]
    have hfresh : ∀ i ∈ l.map Prod.fst, i ≠ a := fun i hi => Nat.ne_of_lt (h i hi)
    have hkeys := map_fst_setKey_fresh l a c hfresh
    rw [ih (a + 1) (setKey l a c) (by
      rw [hkeys]
      intro i hi
      rcases List.mem_append.mp hi with h1 | h1
      · exact Nat.lt_succ_of_lt (h i h1)
      · simp at h1; omega)]
    rw [hkeys]
    simp

/-- Main invariant run: starting from a state whose map keys are exactly
`range' 0 nextId`, every run emits a strictly increasing id sequence, all
emitted ids are at least the starting counter, and the invariant persists. -/
theorem runVI_spec : ∀ (ops : List VIOp) (st : VIState),
    st.idToChunk.map Prod.fst = List.range' 0 st.nextId →
    List.Pairwise (· < ·) (runVI st ops).2 ∧
    (∀ i ∈ (runVI st ops).2, st.nextId ≤ i) ∧
    (runVI st ops).1.idToChunk.map Prod.fst = List.range' 0 (runVI st ops).1.nextId := by
  intro ops
  induction ops with
  | nil => intro st hinv; exact ⟨List.Pairwise.nil, by simp [runVI], hinv⟩
  | cons op ops ih =>
    intro st hinv
    match op with
    | VIOp.restart =>
      have hre : reloadIndex st = st := by
        unfold reloadIndex
        by_cases hemp : st.idToChunk.isEmpty
        · have h0 : st.idToChunk = [] := List.isEmpty_iff.mp hemp
          have hnil : List.range' 0 st.nextId = [] := by rw [← hinv, h0]; rfl
          have hz : st.nextId = 0 := by
            have hlen := congrArg List.length hnil
            simpa using hlen
          rw [if_pos hemp, ← hz]
        · have hpos : 0 < st.nextId := by
            by_contra hne
            have hz : st.nextId = 0 := by omega
            rw [hz] at hinv
            have h1 : st.idToChunk.map Prod.fst = [] := hinv
            have h2 : st.idToChunk = [] := by
              cases h0 : st.idToChunk with
              | nil => rfl
              | cons p t => rw [h0] at h1; simp at h1
            exact hemp (List.isEmpty_iff.mpr h2)
          rw [if_neg hemp, hinv, foldl_max_range' st.nextId 0 hpos]
          have harith : 0 + st.nextId - 1 + 1 = st.nextId := by omega
          rw [harith]
      have hstep : runVI st (VIOp.restart :: ops) = runVI st ops := by
        show runVI (reloadIndex st) ops = runVI st ops
        rw [hre]
      rw [hstep]
      exact ih st hinv
    | VIOp.insert es cd =>
      show _ ∧ _ ∧ _
      by_cases hguard : es.isEmpty || cd.isEmpty
      · have hbulk : addEmbeddingsBulk st es cd = ((false, []), st) := by
          unfold addEmbeddingsBulk
          rw [if_pos hguard]
        obtain ⟨p1, p2, p3⟩ := ih st hinv
        refine ⟨?_, ?_, ?_⟩ <;>
          simp only [runVI, hbulk] <;> [exact p1; exact fun i hi => p2 i hi; exact p3]
      · by_cases hlen : es.length ≠ cd.length
        · have hbulk : addEmbeddingsBulk st es cd = ((false, []), st) := by
            unfold addEmbeddingsBulk
            rw [if_neg hguard, if_pos hlen]
          obtain ⟨p1, p2, p3⟩ := ih st hinv
          refine ⟨?_, ?_, ?_⟩ <;>
            simp only [runVI, hbulk] <;> [exact p1; exact fun i hi => p2 i hi; exact p3]
        · -- successful bulk insertion
          have hlen' : es.length = cd.length := by omega
          have hbulk : addEmbeddingsBulk st es cd =
              ((true, List.range' st.nextId es.length),
                { nextId := st.nextId + es.length
                  vectors := st.vectors ++ (List.range' st.nextId es.length).zip es
                  idToChunk := ((List.range' st.nextId es.length).zip cd).foldl
                    (fun acc p => setKey acc p.1 p.2) st.idToChunk }) := by
            unfold addEmbeddingsBulk
            rw [if_neg hguard, if_neg hlen]
          set st' : VIState :=
            { nextId := st.nextId + es.length
              vectors := st.vectors ++ (List.range' st.nextId es.length).zip es
              idToChunk := ((List.range' st.nextId es.length).zip cd).foldl
                (fun acc p => setKey acc p.1 p.2) st.idToChunk } with hst'
          have hbound : ∀ i ∈ st.idToChunk.map Prod.fst, i < st.nextId := by
            rw [hinv]
            intro i hi
            have := List.mem_range'_1.mp hi
            omega
          have hnid : st'.nextId = st.nextId + es.length := rfl
          have hkeys : st'.idToChunk.map Prod.fst = List.range' 0 st'.nextId := by
            show (((List.range' st.nextId es.length).zip cd).foldl
              (fun acc p => setKey acc p.1 p.2) st.idToChunk).map Prod.fst = _
            have hzip : ((List.range' st.nextId es.length).zip cd)
                = ((List.range' st.nextId cd.length).zip cd) := by rw [hlen']
            rw [hzip, keys_foldl_setKey_zip cd st.nextId st.idToChunk hbound, hinv, ← hlen',
              hnid]
            have happ := List.range'_append_1 0 st.nextId es.length
            simp only [Nat.zero_add] at happ
            rw [happ, Nat.add_comm es.length st.nextId]
          obtain ⟨p1, p2, p3⟩ := ih st' hkeys
          have hrun : runVI st (VIOp.insert es cd :: ops)
              = ((runVI st' ops).1, List.range' st.nextId es.length ++ (runVI st' ops).2) := by
            simp only [runVI, hbulk]
          rw [hrun]
          refine ⟨?_, ?_, p3⟩
          · rw [List.pairwise_append]
            refine ⟨List.pairwise_lt_range' _ _, p1, ?_⟩
            intro a ha b hb
            have ha' := List.mem_range'_1.mp ha
            have hb' := p2 b hb
            rw [hnid] at hb'
            show a < b
            omega
          · intro i hi
            rcases List.mem_append.mp hi with h1 | h1
            · have := List.mem_range'_1.mp h1; omega
            · have h2 := p2 i h1
              rw [hnid] at h2
              omega

/-- Claim C4 — Monotonic index ids: over every history of bulk insertions
into the Vector Index, including restarts that reload the persisted index
and map (rebuilding the next-id counter as `max(existing ids) + 1`, or `0`
if empty), the assigned entry ids are strictly increasing and never
repeated. -/
theorem index_ids_monotonic (ops : List VIOp) :
    List.Pairwise (· < ·) (runVI initVI ops).2 :=
  (runVI_spec ops initVI rfl).1

/-! ## `VectorIndexer._load_or_create_index` (vector_indexer.py lines 21–54)

A persisted file is `absent` (missing from disk), `corrupt` (present but
`faiss.read_index`/`json.load` raises on it), or `valid data`.  The code path:
`if exists(index) and exists(map)` runs the `try` block — any exception there
prints "Error loading index: …" and builds a fresh index; a loaded non-IDMap
index prints a conversion message, replaces the index with an empty one, but
keeps the loaded map; the `else` branch (either file missing) builds a fresh
index and prints NOTHING. -/

/-- A file slot of the vector store. -/
inductive FileContent (α : Type) where
  | absent
  | corrupt
  | valid (a : α)
  deriving DecidableEq, Repr

/-- Parsed content of `faiss.index`. -/
structure IndexFileData where
  isIdMap : Bool
  vectors : List (ℕ × List ℚ)
  deriving DecidableEq, Repr

/-- The two persisted files of the vector store directory. -/
structure VectorStoreFS where
  indexFile : FileContent IndexFileData
  mapFile : FileContent (List (ℕ × IdxMeta))
  deriving DecidableEq, Repr

/-- The two print statements of `_load_or_create_index`. -/
inductive LogMsg where
  | errorLoadingIndex
  | convertingToIdMap
  deriving DecidableEq, Repr

/-- The in-memory result of `_load_or_create_index`. -/
structure LoadedIndex where
  vectors : List (ℕ × List ℚ)
  idToChunk : List (ℕ × IdxMeta)
  nextId : ℕ
  deriving DecidableEq, Repr

/-- A brand-new empty `IndexIDMap`. -/
def freshIndex : LoadedIndex := ⟨[], [], 0⟩

/-- `VectorIndexer._load_or_create_index`, returning the built state together
with the list of emitted log messages.  Total: the Python `except` swallows
every loading exception, so no call raises. -/
def loadOrCreateIndex (fs : VectorStoreFS) : LoadedIndex × List LogMsg :=
  match fs.indexFile, fs.mapFile with
  | .valid idx, .valid m =>
    let conv : List (ℕ × List ℚ) × List LogMsg :=
      if idx.isIdMap then (idx.vectors, [])
      else ([], [LogMsg.convertingToIdMap])
    let nextId := if m.isEmpty then 0 else (m.map Prod.fst).foldl max 0 + 1
    (⟨conv.1, m, nextId⟩, conv.2)
  | .absent, _ => (freshIndex, [])
  | _, .absent => (freshIndex, [])
  | _, _ => (freshIndex, [LogMsg.errorLoadingIndex])

/-- Claim C9 is violated: with a valid, non-empty persisted `faiss.index`
whose companion map file is missing, `_load_or_create_index` takes the `else`
branch — it starts from an empty index and emits no log message at all, so
the persisted entries are discarded silently. -/
theorem index_load_silent_discard :
    loadOrCreateIndex ⟨.valid ⟨true, [(0, [1])]⟩, .absent⟩ = (freshIndex, []) ∧
    (⟨.valid ⟨true, [(0, [1])]⟩, .absent⟩ : VectorStoreFS).indexFile ≠ .absent := by
  constructor
  · rfl
  · decide

/-- Claim C9, amended — load recovery is lossy-but-loud only for exceptions:
on every load, the component never raises; when both files are present and
either is unreadable it logs the lossy event and starts from an empty index;
when both are present and readable but the index lacks id-mapping support it
logs a conversion message, discards the vectors and keeps the map; but when
exactly one of the two files is missing it starts from an empty index
silently, with no log message. -/
theorem index_load_recovery_amended (fs : VectorStoreFS) :
    ((fs.indexFile = .absent ∨ fs.mapFile = .absent) →
      loadOrCreateIndex fs = (freshIndex, [])) ∧
    ((fs.indexFile = .corrupt ∨ fs.mapFile = .corrupt) →
      fs.indexFile ≠ .absent → fs.mapFile ≠ .absent →
      loadOrCreateIndex fs = (freshIndex, [LogMsg.errorLoadingIndex])) ∧
    (∀ idx m, fs.indexFile = .valid idx → fs.mapFile = .valid m →
      idx.isIdMap = false →
      (loadOrCreateIndex fs).1.vectors = [] ∧
      (loadOrCreateIndex fs).1.idToChunk = m ∧
      (loadOrCreateIndex fs).2 = [LogMsg.convertingToIdMap]) := by
  obtain ⟨fi, fm⟩ := fs
  refine ⟨?_, ?_, ?_⟩
  · rintro (h | h)
    · subst h; cases fm <;> rfl
    · subst h; cases fi <;> rfl
  · rintro (h | h) hi hm
    · subst h
      cases fm with
      | absent => exact absurd rfl hm
      | corrupt => rfl
      | valid m => rfl
    · subst h
      cases fi with
      | absent => exact absurd rfl hi
      | corrupt => rfl
      | valid idx => rfl
  · intro idx m hi hm hmap
    subst hi
    subst hm
    simp [loadOrCreateIndex, hmap]

/-- Witness for the amended C9 at a concrete input: both files present, the
index file corrupt — the load logs the lossy event and starts empty. -/
theorem index_load_recovery_amended_witness :
    loadOrCreateIndex ⟨.corrupt, .valid []⟩ = (freshIndex, [LogMsg.errorLoadingIndex]) :=
  (index_load_recovery_amended ⟨.corrupt, .valid []⟩).2.1 (Or.inl rfl)
    (by decide) (by decide)

/-! ## Hybrid Retriever merge (`hybrid_retriever.py`, `HybridRetriever.retrieve`)

Python floats carry `float('inf')` here, so scores are modelled by `XF`:
exact rationals plus the IEEE special values, with IEEE multiplication
(`inf * x` is `inf`, `-inf` or `nan` by the sign of `x`) and IEEE comparison
(every `<` involving `nan` is false).  `0.3` is modelled as the exact `3/10`;
every concrete instance below is chosen so that rounding cannot change any
comparison's outcome. -/

/-- A Python float value occurring in the retriever's scores. -/
inductive XF where
  | fin (q : ℚ)
  | inf
  | ninf
  | nan
  deriving DecidableEq, Repr

/-- IEEE-754 multiplication on the values `XF` can represent. -/
def XF.mul : XF → XF → XF
  | .fin a, .fin b => .fin (a * b)
  | .fin a, .inf => if 0 < a then .inf else if a < 0 then .ninf else .nan
  | .inf, .fin b => if 0 < b then .inf else if b < 0 then .ninf else .nan
  | .fin a, .ninf => if 0 < a then .ninf else if a < 0 then .inf else .nan
  | .ninf, .fin b => if 0 < b then .ninf else if b < 0 then .inf else .nan
  | .inf, .inf => .inf
  | .inf, .ninf => .ninf
  | .ninf, .inf => .ninf
  | .ninf, .ninf => .inf
  | .nan, _ => .nan
  | _, .nan => .nan

/-- IEEE-754 `<` (false whenever `nan` is involved). -/
def XF.lt : XF → XF → Bool
  | .nan, _ => false
  | _, .nan => false
  | .ninf, .ninf => false
  | .ninf, _ => true
  | _, .ninf => false
  | .fin a, .fin b => decide (a < b)
  | .fin _, .inf => true
  | .inf, _ => false

/-- One semantic-pass result (`vector_indexer.search` output:
`chunk_id`, `metadata`, `score` = L2 distance, always finite). -/
structure SemRes where
  chunkId : String
  metadata : ChunkMeta
  score : ℚ
  deriving DecidableEq, Repr

/-- One lexical-pass result (`_keyword_search` output: `score` is the count
of distinct query terms appearing in the chunk text). -/
structure KwRes where
  chunkId : String
  metadata : ChunkMeta
  score : ℕ
  deriving DecidableEq, Repr

/-- One entry of the `combined_results` dict. -/
structure CombEntry where
  chunkId : String
  metadata : ChunkMeta
  semanticScore : XF
  keywordScore : ℚ
  combinedScore : XF
  deriving DecidableEq, Repr

/-- Seeding from a semantic result (retrieve, lines 66–73). -/
def seedSemantic (r : SemRes) : CombEntry :=
  ⟨r.chunkId, r.metadata, .fin r.score, 0, .fin r.score⟩

/-- Merging one keyword result into `combined_results` (lines 76–93):
normalize by `max(1, len(chunk_id))`, then either update the existing entry's
keyword and combined scores, or seed a new entry with
`semantic_score = float('inf')`. -/
def mergeStep (acc : List CombEntry) (r : KwRes) : List CombEntry :=
  let ks : ℚ := (r.score : ℚ) / ((max 1 r.chunkId.length : ℕ) : ℚ)
  if acc.any (fun e => e.chunkId == r.chunkId) then
    acc.map (fun e =>
      if e.chunkId = r.chunkId then
        { e with keywordScore := ks
                 combinedScore := e.semanticScore.mul (.fin (1 - 3/10 * ks)) }
      else e)
  else
    acc ++ [⟨r.chunkId, r.metadata, .inf, ks, XF.mul .inf (.fin (1 - 3/10 * ks))⟩]

/-- The full `combined_results` dict, in insertion order. -/
def buildCombined (sem : List SemRes) (kw : List KwRes) : List CombEntry :=
  kw.foldl mergeStep (sem.map seedSemantic)

/-- Stable insertion into an ascending list: a later element goes after all
elements it does not strictly beat — the order Python's stable `sorted`
produces for a total preorder. -/
def insertByScore (e : CombEntry) : List CombEntry → List CombEntry
  | [] => [e]
  | b :: l =>
    if XF.lt e.combinedScore b.combinedScore then e :: b :: l
    else b :: insertByScore e l

/-- `sorted(combined_results.values(), key=lambda x: x['combined_score'])`. -/
def sortByCombined (l : List CombEntry) : List CombEntry :=
  l.foldl (fun acc e => insertByScore e acc) []

/-- One returned result (after the cleanup that renames `combined_score` to
`score` and drops the component scores). -/
structure RetRes where
  chunkId : String
  metadata : ChunkMeta
  score : XF
  deriving DecidableEq, Repr

/-- `HybridRetriever.retrieve` from the two pass outputs: merge, sort
ascending by combined score, truncate to `top_k`, clean up. -/
def retrieveHybrid (sem : List SemRes) (kw : List KwRes) (topK : ℕ) : List RetRes :=
  ((sortByCombined (buildCombined sem kw)).take topK).map
    (fun e => ⟨e.chunkId, e.metadata, e.combinedScore⟩)

/-- Every merged entry satisfies
`combined_score = semantic_score * (1 - 0.3 * keyword_score)`. -/
def combinedFormulaOK (e : CombEntry) : Bool :=
  e.combinedScore == e.semanticScore.mul (.fin (1 - 3/10 * e.keywordScore))

theorem mergeStep_formula (acc : List CombEntry) (r : KwRes)
    (h : acc.all combinedFormulaOK = true) :
    (mergeStep acc r).all combinedFormulaOK = true := by
  unfold mergeStep
  split
  · rw [List.all_eq_true] at h ⊢
    intro e he
    obtain ⟨e0, he0, hee⟩ := List.mem_map.mp he
    by_cases hid : e0.chunkId = r.chunkId
    · rw [if_pos hid] at hee
      subst hee
      exact beq_self_eq_true _
    · rw [if_neg hid] at hee
      subst hee
      exact h e0 he0
  · rw [List.all_eq_true] at h ⊢
    intro e he
    rcases List.mem_append.mp he with h1 | h1
    · exact h e h1
    · simp only [List.mem_singleton] at h1
      subst h1
      exact beq_self_eq_true _

theorem buildCombined_formula (sem : List SemRes) (kw : List KwRes) :
    (buildCombined sem kw).all combinedFormulaOK = true := by
  unfold buildCombined
  have hinit : (sem.map seedSemantic).all combinedFormulaOK = true := by
    rw [List.all_eq_true]
    intro e he
    obtain ⟨r, hr, hre⟩ := List.mem_map.mp he
    subst hre
    show (XF.fin r.score == XF.mul (.fin r.score) (.fin (1 - 3/10 * 0))) = true
    have h1 : (1 : ℚ) - 3/10 * 0 = 1 := by norm_num
    rw [h1]
    show (XF.fin r.score == XF.fin (r.score * 1)) = true
    rw [mul_one]
    exact beq_self_eq_true _
  revert hinit
  generalize sem.map seedSemantic = acc
  induction kw generalizing acc with
  | nil => intro h; exact h
  | cons r kw ih =>
    intro h
    exact ih (mergeStep acc r) (mergeStep_formula acc r h)

/-- Every merged entry is either semantic-seeded (its id occurs among the
semantic results and its semantic score is finite) or lexical-only (its id
does not, and its semantic score is `float('inf')`). -/
theorem buildCombined_cases (sem : List SemRes) (kw : List KwRes) :
    ∀ e ∈ buildCombined sem kw,
      (e.chunkId ∈ sem.map SemRes.chunkId ∧ ∃ q, e.semanticScore = .fin q) ∨
      (e.chunkId ∉ sem.map SemRes.chunkId ∧ e.semanticScore = .inf) := by
  unfold buildCombined
  have hinit : (∀ i ∈ sem.map SemRes.chunkId, i ∈ (sem.map seedSemantic).map CombEntry.chunkId) ∧
      ∀ e ∈ sem.map seedSemantic,
        (e.chunkId ∈ sem.map SemRes.chunkId ∧ ∃ q, e.semanticScore = .fin q) ∨
        (e.chunkId ∉ sem.map SemRes.chunkId ∧ e.semanticScore = .inf) := by
    constructor
    · intro i hi
      rw [List.map_map]
      exact hi
    · intro e he
      obtain ⟨r, hr, hre⟩ := List.mem_map.mp he
      subst hre
      exact Or.inl ⟨List.mem_map_of_mem _ hr, r.score, rfl⟩
  revert hinit
  generalize sem.map seedSemantic = acc
  induction kw generalizing acc with
  | nil => intro h; exact h.2
  | cons r kw ih =>
    intro h
    refine ih (mergeStep acc r) ⟨?_, ?_⟩
    · -- ids only grow
      intro i hi
      have h1 := h.1 i hi
      unfold mergeStep
      split
      · rw [List.map_map]
        obtain ⟨e, he, hei⟩ := List.mem_map.mp h1
        refine List.mem_map.mpr ⟨e, he, ?_⟩
        by_cases hid : e.chunkId = r.chunkId
        · simp only [Function.comp_apply, if_pos hid]
          exact hei
        · simp only [Function.comp_apply, if_neg hid]
          exact hei
      · rw [List.map_append]
        exact List.mem_append.mpr (Or.inl h1)
    · -- the disjunction is preserved
      intro e he
      unfold mergeStep at he
      rcases hany : acc.any (fun e => e.chunkId == r.chunkId) with _ | _ <;>
        rw [hany] at he
      · -- append branch: r.chunkId is fresh, hence not a semantic id
        simp only [Bool.false_eq_true, if_false] at he
        rcases List.mem_append.mp he with h1 | h1
        · exact h.2 e h1
        · simp only [List.mem_singleton] at h1
          subst h1
          refine Or.inr ⟨?_, rfl⟩
          intro hmem
          have h2 := h.1 _ hmem
          obtain ⟨e0, he0, he0i⟩ := List.mem_map.mp h2
          have htrue : acc.any (fun e => e.chunkId == r.chunkId) = true :=
            List.any_eq_true.mpr ⟨e0, he0, by rw [he0i]; exact beq_self_eq_true _⟩
          rw [htrue] at hany
          cases hany
      · -- update branch: chunk id and semantic score are preserved
        simp only [if_true] at he
        obtain ⟨e0, he0, hee⟩ := List.mem_map.mp he
        have h2 := h.2 e0 he0
        by_cases hid : e0.chunkId = r.chunkId
        · rw [if_pos hid] at hee
          subst hee
          exact h2
        · rw [if_neg hid] at hee
          subst hee
          exact h2

theorem xf_mul_inf_pos {x : ℚ} (hx : 0 < x) : XF.mul .inf (.fin x) = .inf := by
  show (if 0 < x then XF.inf else if x < 0 then XF.ninf else XF.nan) = XF.inf
  rw [if_pos hx]

/-- Claim C7, amended — a merge entry seeded only by the lexical pass gets
`semantic_score = float('inf')`; whenever its normalized keyword score is
below `10/3` (so the discount multiplier stays positive — with pipeline ids
of 17 characters this means fewer than 57 distinct matching terms), its
combined score is `+inf`, which the sort comparator ranks strictly behind
every semantic-pass entry's finite combined score; a keyword score above
`10/3` instead makes the combined score `-inf` and ranks it first. -/
theorem lexical_only_ranks_last_amended (sem : List SemRes) (kw : List KwRes)
    (e : CombEntry) (he : e ∈ buildCombined sem kw)
    (hlex : e.chunkId ∉ sem.map SemRes.chunkId)
    (hk : e.keywordScore < 10/3) :
    e.semanticScore = .inf ∧ e.combinedScore = .inf ∧
    ∀ s ∈ buildCombined sem kw, s.chunkId ∈ sem.map SemRes.chunkId →
      XF.lt s.combinedScore e.combinedScore = true := by
  have hsem : e.semanticScore = .inf := by
    rcases buildCombined_cases sem kw e he with ⟨h1, _⟩ | ⟨_, h2⟩
    · exact absurd h1 hlex
    · exact h2
  have hform := buildCombined_formula sem kw
  rw [List.all_eq_true] at hform
  have hfe := hform e he
  rw [combinedFormulaOK, beq_iff_eq] at hfe
  have hpos : (0 : ℚ) < 1 - 3/10 * e.keywordScore := by linarith
  have hcomb : e.combinedScore = .inf := by
    rw [hfe, hsem, xf_mul_inf_pos hpos]
  refine ⟨hsem, hcomb, ?_⟩
  intro s hs hsid
  have hq : ∃ q, s.semanticScore = .fin q := by
    rcases buildCombined_cases sem kw s hs with ⟨_, h1⟩ | ⟨h2, _⟩
    · exact h1
    · exact absurd hsid h2
  obtain ⟨q, hq⟩ := hq
  have hfs := hform s hs
  rw [combinedFormulaOK, beq_iff_eq] at hfs
  rw [hcomb, hfs, hq]
  rfl

/-- Shared metadata value for the concrete retriever examples. -/
def mEx : ChunkMeta := ⟨"doc_002", "title", "file", "batch_001", "2024-01-01", "Unknown section", 0⟩

/-- Claim C7, as stated, is false: a lexical-only chunk with a pipeline-shaped
17-character id matched by 68 distinct query terms gets
`keyword_score = 68/17 = 4`, so its combined score is
`inf * (1 - 0.3*4) = -inf`, and it ranks STRICTLY FIRST, ahead of the
semantic hit with distance `0.1` — not behind it. -/
theorem lexical_only_ranks_first_counterexample :
    (retrieveHybrid [⟨"doc_001_chunk_000", mEx, 1/10⟩]
        [⟨"doc_002_chunk_000", mEx, 68⟩] 10).map (fun r => (r.chunkId, r.score))
      = [("doc_002_chunk_000", XF.ninf), ("doc_001_chunk_000", XF.fin (1/10))] := by
  with_unfolding_all decide

/-- Witness for the amended C7: a lexical-only entry with a small keyword
score has infinite semantic and combined scores and is ranked behind the
semantic entry by the comparator. -/
theorem lexical_only_ranks_last_witness :
    ∃ e ∈ buildCombined [⟨"doc_001_chunk_000", mEx, 1/10⟩] [⟨"doc_002_chunk_000", mEx, 1⟩],
      e.semanticScore = .inf ∧ e.combinedScore = .inf ∧
      ∀ s ∈ buildCombined [⟨"doc_001_chunk_000", mEx, 1/10⟩] [⟨"doc_002_chunk_000", mEx, 1⟩],
        s.chunkId ∈ ([⟨"doc_001_chunk_000", mEx, 1/10⟩] : List SemRes).map SemRes.chunkId →
        XF.lt s.combinedScore e.combinedScore = true := by
  refine ⟨⟨"doc_002_chunk_000", mEx, .inf, 1/17, XF.mul .inf (.fin (1 - 3/10 * (1/17)))⟩,
    by with_unfolding_all decide, ?_⟩
  exact lexical_only_ranks_last_amended _ _ _ (by with_unfolding_all decide)
    (by with_unfolding_all decide) (by norm_num)

/-- Claim C8 — the combined-score formula holds for every merged entry of
every retrieval, and on the spec's concrete example (A: distance 0.1, no
keyword overlap; B: distance 0.5, keyword score 1.0; C lexical-only with
keyword score 0.2) the resulting order is A, B, C with scores
`0.1`, `0.35`, `inf`, and `k = 2` returns exactly A then B. -/
theorem combined_score_formula_and_example :
    (∀ sem kw, (buildCombined sem kw).all combinedFormulaOK = true) ∧
    (retrieveHybrid [⟨"docA", mEx, 1/10⟩, ⟨"bb", mEx, 1/2⟩]
        [⟨"bb", mEx, 2⟩, ⟨"ccccc", mEx, 1⟩] 3).map (fun r => (r.chunkId, r.score))
      = [("docA", XF.fin (1/10)), ("bb", XF.fin (7/20)), ("ccccc", XF.inf)] ∧
    (retrieveHybrid [⟨"docA", mEx, 1/10⟩, ⟨"bb", mEx, 1/2⟩]
        [⟨"bb", mEx, 2⟩, ⟨"ccccc", mEx, 1⟩] 2).map RetRes.chunkId
      = ["docA", "bb"] :=
  ⟨buildCombined_formula, by with_unfolding_all decide, by with_unfolding_all decide⟩

/-! ## Batch creation and deletion (`document_loader.py`)

`create_batch` (lines 50–74) derives the new id from the CURRENT number of
batches: `batch_id = f"batch_{total_batches + 1:...}"` with
`total_batches = len(batches)` recomputed after every mutation;
`delete_empty_batch` (lines 360–383) removes a batch and shrinks that
counter, so a later creation can recompute an id that is already in use. -/

/-- `f"batch_{str(n).zfill(3)}"`. -/
def mkBatchId (n : ℕ) : String := "batch_" ++ zfill 3 n

/-- Strip `"batch_"` and decode the zero-filled number. -/
def decodeBatchId (s : String) : ℕ := decodeDec (s.data.drop 6)

theorem decodeBatchId_mkBatchId (n : ℕ) : decodeBatchId (mkBatchId n) = n := by
  cases n with
  | zero => rfl
  | succ m =>
    unfold decodeBatchId mkBatchId zfill
    have hdata : ("batch_" ++ String.mk (zfillChars 3 (decChars (m + 1)))).data
        = "batch_".data ++ zfillChars 3 (decChars (m + 1)) := by
      rfl
    rw [hdata]
    have hdrop : ("batch_".data ++ zfillChars 3 (decChars (m + 1))).drop 6
        = zfillChars 3 (decChars (m + 1)) := by
      have h6 : ("batch_".data).length = 6 := rfl
      rw [← h6, List.drop_left]
    rw [hdrop]
    exact decodeDec_zfill (Nat.succ_pos m) 3

theorem mkBatchId_inj : Function.Injective mkBatchId := by
  intro a b h
  have ha := decodeBatchId_mkBatchId a
  have hb := decodeBatchId_mkBatchId b
  rw [← ha, ← hb, h]

/-- `DocumentLoader.create_batch`: assigns `batch_{total_batches + 1}`,
records the batch, recomputes `total_batches = len(batches)` and saves. -/
def createBatch (reg : Registry) (now effectiveDate : String) : String × Registry :=
  let batchId := mkBatchId (reg.totalBatches + 1)
  let batches := setKey reg.batches batchId ⟨now, effectiveDate, 0⟩
  (batchId,
    { reg with batches := batches, totalBatches := batches.length, lastUpdate := now })

/-- `DocumentLoader.delete_empty_batch`: typed failure on a missing or
non-empty batch (registry untouched); otherwise deletes the record and
recomputes `total_batches`. -/
def deleteEmptyBatch (reg : Registry) (batchId now : String) :
    (Bool × Option String) × Registry :=
  match reg.batches.lookup batchId with
  | none => ((false, some ("Batch " ++ batchId ++ " does not exist")), reg)
  | some b =>
    if b.documentCount > 0 then
      ((false, some ("Cannot delete non-empty batch " ++ batchId)), reg)
    else
      let batches := delKey reg.batches batchId
      ((true, none),
        { reg with batches := batches, totalBatches := batches.length, lastUpdate := now })

/-- The concrete four-step run refuting C10. -/
def batchStep1 : String × Registry := createBatch (freshRegistry "t0") "t1" "2024-01-01"

def batchStep2 : String × Registry := createBatch batchStep1.2 "t2" "2024-01-02"

def batchStep3 : (Bool × Option String) × Registry :=
  deleteEmptyBatch batchStep2.2 "batch_001" "t3"

def batchStep4 : String × Registry := createBatch batchStep3.2 "t4" "2024-01-04"

/-- Claim C10 is violated: create (`batch_001`), create (`batch_002`),
delete the empty `batch_001` (which succeeds and shrinks `total_batches` to
1), then create again — the new batch is assigned `batch_002`, an id already
assigned earlier, and the existing `batch_002` record is overwritten in the
registry. -/
theorem batch_id_reuse_counterexample :
    batchStep1.1 = "batch_001" ∧
    batchStep2.1 = "batch_002" ∧
    batchStep3.1.1 = true ∧
    batchStep4.1 = "batch_002" ∧
    batchStep3.2.batches.lookup "batch_002" = some ⟨"t2", "2024-01-02", 0⟩ ∧
    batchStep4.2.batches.lookup "batch_002" = some ⟨"t4", "2024-01-04", 0⟩ :=
  ⟨rfl, rfl, rfl, rfl, rfl, rfl⟩

/-- A sequence of `create_batch` calls, collecting the assigned ids. -/
def runCreates : Registry → List (String × String) → Registry × List String
  | reg, [] => (reg, [])
  | reg, (now, eff) :: rest =>
    let r := createBatch reg now eff
    let more := runCreates r.2 rest
    (more.1, r.1 :: more.2)

theorem runCreates_spec : ∀ (inputs : List (String × String)) (reg : Registry),
    reg.batches.map Prod.fst = (List.range' 1 reg.totalBatches).map mkBatchId →
    (runCreates reg inputs).2
      = (List.range' (reg.totalBatches + 1) inputs.length).map mkBatchId ∧
    (runCreates reg inputs).1.batches.map Prod.fst
      = (List.range' 1 (reg.totalBatches + inputs.length)).map mkBatchId := by
  intro inputs
  induction inputs with
  | nil =>
    intro reg hinv
    refine ⟨rfl, ?_⟩
    simp only [List.length_nil, Nat.add_zero]
    exact hinv
  | cons p rest ih =>
    intro reg hinv
    obtain ⟨now, eff⟩ := p
    have hlen : reg.batches.length = reg.totalBatches := by
      have := congrArg List.length hinv
      simpa using this
    have hfresh : ∀ i ∈ reg.batches.map Prod.fst, i ≠ mkBatchId (reg.totalBatches + 1) := by
      rw [hinv]
      intro i hi hcontra
      obtain ⟨j, hj, hji⟩ := List.mem_map.mp hi
      have hj' := List.mem_range'_1.mp hj
      have : j = reg.totalBatches + 1 := mkBatchId_inj (hji.trans hcontra)
      omega
    have hset := setKey_fresh reg.batches (mkBatchId (reg.totalBatches + 1))
      (⟨now, eff, 0⟩ : BatchEntry) hfresh
    have hr : List.range' 1 reg.totalBatches ++ [reg.totalBatches + 1]
        = List.range' 1 (reg.totalBatches + 1) := by
      have h1 := List.range'_append_1 1 reg.totalBatches 1
      rw [List.range'_one] at h1
      rw [Nat.add_comm 1 reg.totalBatches] at h1
      exact h1
    have hkeys : (setKey reg.batches (mkBatchId (reg.totalBatches + 1))
        (⟨now, eff, 0⟩ : BatchEntry)).map Prod.fst
        = (List.range' 1 (reg.totalBatches + 1)).map mkBatchId := by
      rw [hset, List.map_append, hinv]
      have hsingle : List.map Prod.fst
          [(mkBatchId (reg.totalBatches + 1), (⟨now, eff, 0⟩ : BatchEntry))]
          = List.map mkBatchId [reg.totalBatches + 1] := rfl
      rw [hsingle, ← List.map_append, hr]
    have hsetlen : (setKey reg.batches (mkBatchId (reg.totalBatches + 1))
        (⟨now, eff, 0⟩ : BatchEntry)).length = reg.totalBatches + 1 := by
      rw [hset]
      simp [hlen]
    set reg' : Registry :=
      { reg with
        batches := setKey reg.batches (mkBatchId (reg.totalBatches + 1)) ⟨now, eff, 0⟩
        totalBatches := (setKey reg.batches (mkBatchId (reg.totalBatches + 1))
          (⟨now, eff, 0⟩ : BatchEntry)).length
        lastUpdate := now } with hreg'
    have hreg'tb : reg'.totalBatches = reg.totalBatches + 1 := hsetlen
    have hinv' : reg'.batches.map Prod.fst
        = (List.range' 1 reg'.totalBatches).map mkBatchId := by
      rw [hreg'tb]
      exact hkeys
    obtain ⟨ih1, ih2⟩ := ih reg' hinv'
    have hrun : runCreates reg ((now, eff) :: rest)
        = ((runCreates reg' rest).1,
            mkBatchId (reg.totalBatches + 1) :: (runCreates reg' rest).2) := rfl
    rw [hrun]
    constructor
    · show mkBatchId (reg.totalBatches + 1) :: (runCreates reg' rest).2
        = (List.range' (reg.totalBatches + 1) (rest.length + 1)).map mkBatchId
      rw [ih1, hreg'tb, List.range'_succ]
      rfl
    · show (runCreates reg' rest).1.batches.map Prod.fst
        = (List.range' 1 (reg.totalBatches + (rest.length + 1))).map mkBatchId
      rw [ih2, hreg'tb]
      have : reg.totalBatches + 1 + rest.length = reg.totalBatches + (rest.length + 1) := by
        omega
      rw [this]

/-- Claim C10, amended — batch id assignment is count-based
(`batch_{len(batches)+1}`), not monotonic: after deleting a batch other than
the highest-numbered one, the next creation reuses an existing id and
overwrites that record (see `batch_id_reuse_counterexample`).  In every
deletion-free sequence of creations from a fresh registry, however, the
assigned ids `batch_001, batch_002, …` are pairwise distinct and each
creation appends a new record, never overwriting an existing one (the
registry's key sequence equals the assigned-id sequence). -/
theorem batch_ids_distinct_without_deletion (t : String) (inputs : List (String × String)) :
    (runCreates (freshRegistry t) inputs).2.Nodup ∧
    (runCreates (freshRegistry t) inputs).1.batches.map Prod.fst
      = (runCreates (freshRegistry t) inputs).2 := by
  obtain ⟨h1, h2⟩ := runCreates_spec inputs (freshRegistry t) rfl
  constructor
  · rw [h1]
    have hnd : (List.range' ((freshRegistry t).totalBatches + 1) inputs.length).Nodup :=
      List.Pairwise.imp (fun h => Nat.ne_of_lt h) (List.pairwise_lt_range' _ _)
    exact hnd.map mkBatchId_inj
  · rw [h2, h1]
    simp [freshRegistry]

end BizBrain
